import Mathlib

/-!
Shallow embedding of `scripts/import-docs.py` (MessageSearchBE batch importer).

Text is modelled as `List Char`.  Python's `str.strip` / the regex class `\s`
are modelled over the ASCII whitespace characters, on which the two agree;
further Unicode whitespace is outside the modelled alphabet.  Python errors
(`ValueError`, `RuntimeError`) are modelled by `PyErr`; an uncaught exception
terminates the CPython process with exit status 1 (`processExit`).
-/

deriving instance DecidableEq for Except

namespace ImportDocs

/-- Python exceptions raised by the script: `ValueError msg` / `RuntimeError msg`. -/
inductive PyErr where
  | valueError (msg : List Char)
  | runtimeError (msg : List Char)
deriving DecidableEq

/-- ASCII whitespace, the characters on which `str.strip` and the regex class
match in the modelled alphabet: space, tab, newline, carriage return,
vertical tab, form feed. -/
def isPySpace (c : Char) : Bool :=
  c == ' ' || c == '\t' || c == '\n' || c == '\r' || c == '\x0b' || c == '\x0c'

/-- Python `s.strip()`: remove leading and trailing whitespace. -/
def pyStrip (s : List Char) : List Char :=
  ((s.dropWhile isPySpace).reverse.dropWhile isPySpace).reverse

/-- Python `s.startswith(pre)`. -/
def strStartsWith : List Char → List Char → Bool
  | _, [] => true
  | [], _ :: _ => false
  | c :: s, d :: pre => c == d && strStartsWith s pre

/-- Worker for `pySplitOn`: scan the text left to right; each occurrence of the
(non-empty) separator `d :: ds` ends the current piece (accumulated reversed
in `acc`). -/
def splitOnGo (d : Char) (ds : List Char) : List Char → List Char → List (List Char)
  | [], acc => [acc.reverse]
  | c :: rest, acc =>
      if strStartsWith (c :: rest) (d :: ds) then
        acc.reverse :: splitOnGo d ds (rest.drop ds.length) []
      else
        splitOnGo d ds rest (c :: acc)
  termination_by t _ => t.length
  decreasing_by
    · simp only [List.length_cons, List.length_drop]; omega
    · simp only [List.length_cons]; omega

/-- Python `text.split(sep)` for a non-empty separator (the script guards the
empty case with a `ValueError` before calling it). -/
def pySplitOn (sep : List Char) (t : List Char) : List (List Char) :=
  match sep with
  | [] => [t]
  | d :: ds => splitOnGo d ds t []

/-- Index of the last occurrence of `ch`, if any. -/
def lastIdxOf (ch : Char) : List Char → Option Nat
  | [] => none
  | c :: rest =>
      match lastIdxOf ch rest with
      | some i => some (i + 1)
      | none => if c == ch then some 0 else none

/-- Length of the (leftmost, backtracking-greedy) match of the Python regex
pattern for a paragraph break — a newline, then any whitespace, then one or
more newlines — at the head of the text, if it matches there.  The engine
matches the first newline, lets the inner whitespace run extend as far as
possible, and backtracks until the final newline group can match, so the
match ends just after the last newline inside the maximal whitespace run. -/
def blankMatch : List Char → Option Nat
  | '\n' :: rest =>
      match lastIdxOf '\n' (rest.takeWhile isPySpace) with
      | some i => some (i + 2)
      | none => none
  | _ => none

/-- Regex split on paragraph breaks: returns the pieces between matches and
the matched separators themselves (`acc` holds the current piece reversed). -/
def reSplitGo : List Char → List Char → List (List Char) × List (List Char)
  | [], acc => ([acc.reverse], [])
  | c :: rest, acc =>
      match blankMatch (c :: rest) with
      | some n =>
          let t := reSplitGo (rest.drop (n - 1)) []
          (acc.reverse :: t.1, (c :: rest).take n :: t.2)
      | none => reSplitGo rest (c :: acc)
  termination_by t _ => t.length
  decreasing_by
    · simp only [List.length_cons, List.length_drop]; omega
    · simp only [List.length_cons]; omega

/-- Message of the `ValueError` for an empty delimiter token. -/
def delimiterMsg : List Char := ("delimiter must not be empty").data

/-- Message of the `ValueError` for an unsupported split rule. -/
def unsupportedMsg (mode : List Char) : List Char :=
  ("unsupported split rule: ").data ++ mode

/-- Model of `split_paragraphs(text, mode)` from the script. -/
def split_paragraphs (text : List Char) (mode : List Char) :
    Except PyErr (List (List Char)) :=
  if mode = ("blankline").data then
    .ok (((reSplitGo text []).1.map pyStrip).filter (fun p => !p.isEmpty))
  else if strStartsWith mode (("delimiter:").data) then
    let delimiter := mode.drop (("delimiter:").data.length)
    if delimiter.isEmpty then .error (.valueError delimiterMsg)
    else .ok (((pySplitOn delimiter text).map pyStrip).filter (fun p => !p.isEmpty))
  else .error (.valueError (unsupportedMsg mode))

example :
    split_paragraphs ("Hello\n \n\nWorld").data (("blankline").data) =
      .ok [("Hello").data, ("World").data] := by
  simp [split_paragraphs, reSplitGo, blankMatch, lastIdxOf, isPySpace, pyStrip]

example :
    split_paragraphs ("a--- b--- ---").data (("delimiter:---").data) =
      .ok [['a'], ['b']] := by
  simp [split_paragraphs, pySplitOn, splitOnGo, strStartsWith, pyStrip, isPySpace]

example :
    split_paragraphs ("x").data (("lines").data) =
      .error (.valueError (unsupportedMsg (("lines").data))) := by decide

example :
    split_paragraphs ("x").data (("delimiter:").data) =
      .error (.valueError delimiterMsg) := by decide

/-- Message of the `ValueError` raised by `chunked` for a non-positive size. -/
def chunkSizeMsg : List Char := ("batch-size must be positive").data

/-- Model of `chunked(items, size)` from the script: `size <= 0` raises; otherwise the
slice comprehension over `range(0, len(items), size)`, which enumerates the
`(n + size - 1) / size` indices `0, size, 2*size, ...`, each slice being
`items[i : i + size]`. -/
def chunked {α : Type} (items : List α) (size : Int) :
    Except PyErr (List (List α)) :=
  if size ≤ 0 then .error (.valueError chunkSizeMsg)
  else
    .ok ((List.range' 0 ((items.length + size.toNat - 1) / size.toNat) size.toNat).map
      (fun i => (items.drop i).take size.toNat))

example : chunked [1, 2, 3, 4, 5] 2 = .ok [[1, 2], [3, 4], [5]] := by decide
example : chunked ([] : List Nat) 3 = .ok [] := by decide
example : chunked [1] 0 = .error (.valueError chunkSizeMsg) := by decide

/-- Structured (JSON-like) values: documents and payloads are Python dicts and
lists; the input record file is modelled post-parse as such a value. -/
inductive JVal where
  | null
  | bool (b : Bool)
  | num (n : Int)
  | str (s : List Char)
  | arr (xs : List JVal)
  | obj (fields : List (List Char × JVal))

/-- First-match association lookup, as for keys of a parsed JSON object
(parsed objects have unique keys). -/
def lookupKey (k : List Char) : List (List Char × JVal) → Option JVal
  | [] => none
  | (k2, v) :: rest => if k == k2 then some v else lookupKey k rest

/-- A directory entry: its name (paths are modelled by entry names), whether
it is a regular file, and its decoded text content. -/
structure FileEntry where
  name : List Char
  isFile : Bool
  content : List Char
deriving DecidableEq

/-- The `pathlib` suffix of a name: from the last dot, provided that dot is
neither the leading character nor the last character. -/
def pySuffix (name : List Char) : List Char :=
  match lastIdxOf '.' name with
  | some i => if 0 < i ∧ i + 1 < name.length then name.drop i else []
  | none => []

/-- The `pathlib` stem: the name with `pySuffix` removed. -/
def pyStem (name : List Char) : List Char :=
  match lastIdxOf '.' name with
  | some i => if 0 < i ∧ i + 1 < name.length then name.take i else name
  | none => name

/-- Python `str.lower` on the modelled (ASCII) alphabet. -/
def pyLower (s : List Char) : List Char := s.map Char.toLower

/-- The check `entry.suffix.lower() in {".txt", ".md"}`. -/
def extOk (name : List Char) : Bool :=
  pyLower (pySuffix name) == (".txt").data || pyLower (pySuffix name) == (".md").data

example : extOk ("notes.TXT").data = true := by decide
example : extOk ("readme.md").data = true := by decide
example : extOk ("data.json").data = false := by decide
example : extOk (".txt").data = false := by decide

/-- Code-point lexicographic comparison of names, as Python compares paths
that share a parent directory. -/
def strLe : List Char → List Char → Bool
  | [], _ => true
  | _ :: _, [] => false
  | a :: s, b :: t =>
      if a.val < b.val then true
      else if b.val < a.val then false
      else strLe s t

/-- Stable insertion of an (originally earlier) entry into a sorted list. -/
def insertEntry (x : FileEntry) : List FileEntry → List FileEntry
  | [] => [x]
  | y :: ys => if strLe x.name y.name then x :: y :: ys else y :: insertEntry x ys

/-- Model of `sorted(path.iterdir())`: stable sort of the entries by name. -/
def sortByName : List FileEntry → List FileEntry
  | [] => []
  | x :: xs => insertEntry x (sortByName xs)

/-- The regular files with a recognized extension, in sorted order — exactly
the entries the directory strategy builds documents from. -/
def matchingFiles (entries : List FileEntry) : List FileEntry :=
  (sortByName entries).filter (fun e => e.isFile && extOk e.name)

/-- Message of the `ValueError` for a file yielding zero paragraphs
(the source message carries the file path, modelled by the entry name). -/
def emptyDocMsg (name : List Char) : List Char := ("empty document: ").data ++ name

/-- Model of `build_doc_from_text(path, language_code, split_mode)`: split the file
content into paragraphs, reject an empty result, and build the document dict
with zero-based paragraph positions and `publish = True`. -/
def build_doc_from_text (e : FileEntry) (language_code split_mode : List Char) :
    Except PyErr JVal :=
  match split_paragraphs e.content split_mode with
  | .error err => .error err
  | .ok paragraphs =>
      if paragraphs.isEmpty then .error (.valueError (emptyDocMsg e.name))
      else
        .ok (JVal.obj
          [ (("title").data, JVal.str (pyStem e.name)),
            (("languageCode").data, JVal.str language_code),
            (("paragraphs").data, JVal.arr (paragraphs.enum.map (fun p =>
              JVal.obj
                [ (("position").data, JVal.num (Int.ofNat p.1)),
                  (("body").data, JVal.str p.2),
                  (("languageCode").data, JVal.str language_code) ]))),
            (("publish").data, JVal.bool true) ])

/-- Observable effects of a run, in order.  `readFile`/`readInput`/`listDir`/
`httpPost` are I/O; `sleepEv` is the backoff wait; `print` is console output. -/
inductive PrintLine where
  | loaded (n : Nat)
  | batchSummary (idx total : Nat) (created failed : Int)
  | detail (index : Option Int) (err : List Char)
  | done (created failed : Int)
deriving DecidableEq

inductive Ev where
  | listDir
  | readFile (name : List Char)
  | readInput
  | httpPost (batch attempt : Nat)
  | sleepEv (batch : Nat) (halves : Nat)
  | print (line : PrintLine)
deriving DecidableEq

/-- The input path as the run observes it: an existing directory with its
entries, an existing (JSON) file with its parsed content, or neither. -/
inductive PathState where
  | dir (entries : List FileEntry)
  | file (content : JVal)
  | missing

/-- Message of the `ValueError` for a missing input directory
(the source message carries the path, elided here). -/
def dirNotFoundMsg : List Char := ("input directory not found").data

/-- Message of the `ValueError` when no `.txt`/`.md` file is found
(the source message carries the path, elided here). -/
def noFilesMsg : List Char := ("no .txt or .md files found").data

/-- Per-file loop of `load_documents_from_dir`: read each matching file
(one `readFile` I/O event each) and build its document; the first failure
aborts the whole load. -/
def loadFilesGo (language_code split_mode : List Char) :
    List FileEntry → List Ev × Except PyErr (List JVal)
  | [] => ([], .ok [])
  | e :: rest =>
      match build_doc_from_text e language_code split_mode with
      | .error err => ([Ev.readFile e.name], .error err)
      | .ok d =>
          let t := loadFilesGo language_code split_mode rest
          (Ev.readFile e.name :: t.1, t.2.map (fun ds => d :: ds))

/-- Model of `load_documents_from_dir(path, language_code, split_mode)`. -/
def load_documents_from_dir (input : PathState) (language_code split_mode : List Char) :
    List Ev × Except PyErr (List JVal) :=
  match input with
  | .dir entries =>
      let t := loadFilesGo language_code split_mode (matchingFiles entries)
      (Ev.listDir :: t.1,
        match t.2 with
        | .ok docs => if docs.isEmpty then .error (.valueError noFilesMsg) else .ok docs
        | .error e => .error e)
  | _ => ([], .error (.valueError dirNotFoundMsg))

/-- Message of the `ValueError` for a missing input file (path elided). -/
def fileNotFoundMsg : List Char := ("input file not found").data

/-- Message of the `ValueError` for a structured input of the wrong shape. -/
def jsonShapeMsg : List Char :=
  ("expected a JSON array of documents or an object with a documents array").data

/-- Model of `load_documents_from_json(path)`: read the file (one `readInput` I/O
event), then accept a top-level list, or an object whose `documents` field is
a list; anything else is rejected. -/
def load_documents_from_json (input : PathState) :
    List Ev × Except PyErr (List JVal) :=
  match input with
  | .file raw =>
      ([Ev.readInput],
        match raw with
        | .arr xs => .ok xs
        | .obj fields =>
            match lookupKey (("documents").data) fields with
            | some (JVal.arr ys) => .ok ys
            | _ => .error (.valueError jsonShapeMsg)
        | _ => .error (.valueError jsonShapeMsg))
  | _ => ([], .error (.valueError fileNotFoundMsg))

/-- A per-item entry of a batch response; fields may be absent
(`item.get(...)` defaults). -/
structure RespItem where
  index? : Option Int
  error? : Option (List Char)
deriving DecidableEq

/-- A parsed batch response, shaped by the wire contract; each field may be
absent, modelling `result.get(...)` defaults. -/
structure BatchResp where
  created? : Option Int
  failed? : Option Int
  results? : Option (List RespItem)
deriving DecidableEq

/-- Outcome of one HTTP attempt: a parsed success response, an HTTP error
status with its response body, or a network-level failure with its cause. -/
inductive HttpOutcome where
  | success (resp : BatchResp)
  | httpError (code : Int) (body : List Char)
  | urlError (reason : List Char)
deriving DecidableEq

/-- Events of one `post_json` call: an HTTP attempt (0-indexed) or a backoff
sleep.  Durations are measured in half-seconds, so `sleep d` is a wait of
`0.5 * d` seconds. -/
inductive SendEv where
  | attempt (i : Nat)
  | sleep (halves : Nat)
deriving DecidableEq

/-- Model of `time.sleep(0.5 * (2 ** attempt))`: a wait of `2 ^ attempt` half-seconds,
that is `0.5 * 2 ^ attempt` seconds. -/
def backoff (attempt : Nat) : Nat := 2 ^ attempt

/-- The retryable HTTP statuses. -/
def retryCodes : List Int := [429, 500, 502, 503, 504]

/-- Message of the `RuntimeError` for a final HTTP error: carries the status
code and the response body. -/
def httpErrMsg (code : Int) (body : List Char) : List Char :=
  ("HTTP ").data ++ (toString code).data ++ (": ").data ++ body

/-- Message of the `RuntimeError` for a final network failure: carries the
underlying cause. -/
def netErrMsg (reason : List Char) : List Char := ("request failed: ").data ++ reason

/-- Message of the `RuntimeError` raised after the loop when no attempt ran. -/
def afterRetriesMsg : List Char := ("request failed after retries").data

/-- The retry loop of `post_json`, at attempt `a` with `b` further attempts
allowed (`b = retries - a`; `attempt < retries` iff `b > 0`).  The attempt
outcomes are supplied by `r`. -/
def postGo (r : Nat → HttpOutcome) : Nat → Nat → List SendEv × Except PyErr BatchResp
  | a, 0 =>
      match r a with
      | .success resp => ([SendEv.attempt a], .ok resp)
      | .httpError c body => ([SendEv.attempt a], .error (.runtimeError (httpErrMsg c body)))
      | .urlError m => ([SendEv.attempt a], .error (.runtimeError (netErrMsg m)))
  | a, b + 1 =>
      match r a with
      | .success resp => ([SendEv.attempt a], .ok resp)
      | .httpError c body =>
          if retryCodes.contains c then
            let t := postGo r (a + 1) b
            (SendEv.attempt a :: SendEv.sleep (backoff a) :: t.1, t.2)
          else ([SendEv.attempt a], .error (.runtimeError (httpErrMsg c body)))
      | .urlError _ =>
          let t := postGo r (a + 1) b
          (SendEv.attempt a :: SendEv.sleep (backoff a) :: t.1, t.2)

/-- Model of `post_json(url, token, payload, retries)`.  The URL, headers and payload
do not influence the control flow and are abstracted into the outcome
function `r`.  `for attempt in range(retries + 1)` runs attempts
`0 .. retries`; with a negative `retries` the loop body never runs and the
final generic `RuntimeError` is raised. -/
def post_json (r : Nat → HttpOutcome) (retries : Int) :
    List SendEv × Except PyErr BatchResp :=
  if retries < 0 then ([], .error (.runtimeError afterRetriesMsg))
  else postGo r 0 retries.toNat

/-- Number of HTTP attempts recorded in a `post_json` event list. -/
def countAttempts (evs : List SendEv) : Nat :=
  (evs.filter (fun e => match e with | .attempt _ => true | .sleep _ => false)).length

/-- The sleep durations (in half-seconds) recorded in a `post_json` event
list, in order. -/
def sleepsOf (evs : List SendEv) : List Nat :=
  evs.filterMap (fun e => match e with | .sleep d => some d | .attempt _ => none)

example :
    post_json (fun _ => HttpOutcome.httpError 503 (("oops").data)) 2 =
      ([SendEv.attempt 0, SendEv.sleep (backoff 0), SendEv.attempt 1,
        SendEv.sleep (backoff 1), SendEv.attempt 2],
       .error (.runtimeError (httpErrMsg 503 (("oops").data)))) := by decide

example :
    post_json (fun _ => HttpOutcome.httpError 404 (("nf").data)) 2 =
      ([SendEv.attempt 0], .error (.runtimeError (httpErrMsg 404 (("nf").data)))) := by
  decide

example :
    post_json (fun _ => HttpOutcome.success ⟨none, none, none⟩) (-1) =
      ([], .error (.runtimeError afterRetriesMsg)) := by decide

/-- The `--format` choices. -/
inductive Fmt where
  | dir
  | json
deriving DecidableEq

/-- The parsed command-line arguments that influence the run's control flow
(base URL and token are abstracted away with the transport). -/
structure Args where
  language_code : List Char
  batch_size : Int
  retries : Int
  format : Option Fmt
  split : List Char
  dry_run : Bool

/-- Format resolution in `main`: an explicit `--format` wins; otherwise `dir`
iff the input path is a directory. -/
def resolveFmt (a : Args) (input : PathState) : Fmt :=
  match a.format with
  | some f => f
  | none => match input with | .dir _ => Fmt.dir | _ => Fmt.json

/-- The document-load phase of `main`: the chosen loader's events and result. -/
def loadPhase (a : Args) (input : PathState) : List Ev × Except PyErr (List JVal) :=
  match resolveFmt a input with
  | .dir => load_documents_from_dir input a.language_code a.split
  | .json => load_documents_from_json input

/-- Tag a `post_json` event with the (0-based) batch it belongs to. -/
def sendEvToEv (batch : Nat) : SendEv → Ev
  | .attempt i => Ev.httpPost batch i
  | .sleep d => Ev.sleepEv batch d

/-- The per-item detail lines printed for a batch result:
one line per item whose `error` field is present and truthy (non-empty). -/
def detailLines (result : BatchResp) : List Ev :=
  (result.results?.getD []).filterMap (fun it =>
    match it.error? with
    | some s => if s.isEmpty then none else some (Ev.print (PrintLine.detail it.index? s))
    | none => none)

/-- The per-batch loop of `main`.  `idx` is the 0-based batch counter (the
printed batch number is `idx + 1`), `total` the number of batches, `tc`/`tf`
the accumulated created/failed totals.  Each batch is sent with `post_json`
(outcomes supplied by `resp idx`); a transport failure aborts immediately;
otherwise `created`/`failed` are read with a default of 0, the summary line
is printed, detail lines are printed when `failed` is nonzero (Python
`if failed:`), and the loop continues.  After the last batch the totals are
printed and the exit status is 0 iff the accumulated `failed` total is 0. -/
def sendBatches (resp : Nat → Nat → HttpOutcome) (retries : Int) (total : Nat) :
    Nat → List (List JVal) → Int → Int → List Ev × Except PyErr Nat
  | _, [], tc, tf =>
      ([Ev.print (PrintLine.done tc tf)], .ok (if tf = 0 then 0 else 1))
  | idx, _ :: rest, tc, tf =>
      let s := post_json (resp idx) retries
      let evs := s.1.map (sendEvToEv idx)
      match s.2 with
      | .error e => (evs, .error e)
      | .ok result =>
          let created := result.created?.getD 0
          let failed := result.failed?.getD 0
          let details := if failed = 0 then [] else detailLines result
          let t := sendBatches resp retries total (idx + 1) rest (tc + created) (tf + failed)
          (evs ++ Ev.print (PrintLine.batchSummary (idx + 1) total created failed)
              :: details ++ t.1, t.2)

/-- Model of `main()`: resolve the format, load the documents, honour `--dry-run`,
plan the batches, send them and return the exit status; any raised error
propagates (and terminates the process, see `processExit`). -/
def main (a : Args) (input : PathState) (resp : Nat → Nat → HttpOutcome) :
    List Ev × Except PyErr Nat :=
  let lp := loadPhase a input
  match lp.2 with
  | .error e => (lp.1, .error e)
  | .ok documents =>
      if a.dry_run then
        (lp.1 ++ [Ev.print (PrintLine.loaded documents.length)], .ok 0)
      else
        match chunked documents a.batch_size with
        | .error e => (lp.1, .error e)
        | .ok batches =>
            let t := sendBatches resp a.retries batches.length 0 batches 0 0
            (lp.1 ++ t.1, t.2)

/-- Model of `sys.exit(main())`: a returned status is passed through; an uncaught
exception makes CPython terminate with exit status 1. -/
def processExit : Except PyErr Nat → Nat
  | .ok n => n
  | .error _ => 1

/-- The events that perform I/O (file system reads and network calls). -/
def isIOEv : Ev → Bool
  | .listDir => true
  | .readFile _ => true
  | .readInput => true
  | .httpPost _ _ => true
  | .sleepEv _ _ => false
  | .print _ => false

/-- The errors the spec classifies as `ConfigurationError`: invalid run
parameters — non-positive batch size, unrecognized split rule, empty
delimiter token. -/
def isConfigurationError : PyErr → Prop
  | .valueError msg =>
      msg = chunkSizeMsg ∨ msg = delimiterMsg ∨ ∃ m, msg = unsupportedMsg m
  | .runtimeError _ => False

/-- The split modes `split_paragraphs` accepts: `blankline`, or `delimiter:`
followed by a non-empty token. -/
def validModeB (mode : List Char) : Bool :=
  mode == ("blankline").data ||
    (strStartsWith mode (("delimiter:").data) && decide ((("delimiter:").data.length < mode.length)))

/-- The configuration error `split_paragraphs` raises on an invalid mode:
an empty delimiter token if the mode has the `delimiter:` prefix, otherwise
the unsupported-rule error. -/
def splitConfigErr (mode : List Char) : PyErr :=
  if strStartsWith mode (("delimiter:").data) then .valueError delimiterMsg
  else .valueError (unsupportedMsg mode)

/-- The pieces `ps` occur, piece after piece and in order, inside the text `t`. -/
def appearsInOrder : List (List Char) → List Char → Prop
  | [], _ => True
  | p :: ps, t => ∃ u v, t = u ++ p ++ v ∧ appearsInOrder ps v

/-- Interleave split pieces with the separators matched between them. -/
def interleave : List (List Char) → List (List Char) → List Char
  | [], _ => []
  | p :: ps, [] => p ++ interleave ps []
  | p :: ps, s :: ss => p ++ s ++ interleave ps ss

/-- The event shape of a `post_json` call that makes `n` attempts starting at
attempt number `a`: each attempt except the last is followed by its backoff
sleep. -/
def sendPattern (a : Nat) : Nat → List SendEv
  | 0 => []
  | 1 => [SendEv.attempt a]
  | n + 2 => SendEv.attempt a :: SendEv.sleep (backoff a) :: sendPattern (a + 1) (n + 1)

/-- Join pieces with a separator between consecutive pieces. -/
def joinSep (sep : List Char) : List (List Char) → List Char
  | [] => []
  | [p] => p
  | p :: p2 :: ps => p ++ sep ++ joinSep sep (p2 :: ps)

/-- The outcomes of a single attempt that `post_json` retries while attempts
remain: an HTTP error with a retryable status, or any network-level failure. -/
def retryableB : HttpOutcome → Bool
  | .success _ => false
  | .httpError c _ => retryCodes.contains c
  | .urlError _ => true

/-- Recursive formulation of chunking into pieces of size `s + 1`, used to
reason about the slice comprehension of `chunked`. -/
def chunksGo {α : Type} (s : Nat) : List α → List (List α)
  | [] => []
  | a :: l => ((a :: l).take (s + 1)) :: chunksGo s (l.drop s)
  termination_by l => l.length
  decreasing_by simp only [List.length_cons, List.length_drop]; omega

/-! Lemmas about stripping -/

theorem dropWhile_head?_not (p : Char → Bool) :
    ∀ (l : List Char) (x : Char), (l.dropWhile p).head? = some x → p x = false := by
  intro l
  induction l with
  | nil => simp
  | cons c t ih =>
      intro x hx
      by_cases hc : p c
      · rw [List.dropWhile_cons_of_pos hc] at hx
        exact ih x hx
      · rw [List.dropWhile_cons_of_neg hc] at hx
        simp only [List.head?_cons, Option.some.injEq] at hx
        rw [← hx]
        exact Bool.eq_false_iff.mpr hc

theorem dropWhile_eq_self_of_head? (p : Char → Bool) (l : List Char)
    (h : ∀ x, l.head? = some x → p x = false) : l.dropWhile p = l := by
  cases l with
  | nil => rfl
  | cons c t => exact List.dropWhile_cons_of_neg (by simp [h c rfl])

theorem mem_of_getLast?_eq (l : List Char) (x : Char) (h : l.getLast? = some x) :
    x ∈ l := by
  rw [← List.head?_reverse] at h
  have hm : x ∈ l.reverse := by
    cases hr : l.reverse with
    | nil => rw [hr] at h; simp at h
    | cons a t =>
        rw [hr] at h
        simp only [List.head?_cons, Option.some.injEq] at h
        subst h
        exact List.mem_cons_self a t
  exact List.mem_reverse.mp hm

/-- The head of a stripped string is not whitespace. -/
theorem pyStrip_head?_not (s : List Char) (x : Char)
    (h : (pyStrip s).head? = some x) : isPySpace x = false := by
  unfold pyStrip at h
  rw [List.head?_reverse] at h
  -- h : (dropWhile ws ((dropWhile ws s).reverse)).getLast? = some x
  set v := (s.dropWhile isPySpace).reverse with hv
  have hsplit : v.takeWhile isPySpace ++ v.dropWhile isPySpace = v :=
    List.takeWhile_append_dropWhile isPySpace v
  have hne : v.dropWhile isPySpace ≠ [] := by
    intro hnil
    rw [hnil] at h
    simp at h
  have hlast : v.getLast? = some x := by
    rw [← hsplit, List.getLast?_append_of_ne_nil _ hne]
    exact h
  rw [hv, List.getLast?_reverse] at hlast
  exact dropWhile_head?_not isPySpace s x hlast

/-- The last character of a stripped string is not whitespace. -/
theorem pyStrip_getLast?_not (s : List Char) (x : Char)
    (h : (pyStrip s).getLast? = some x) : isPySpace x = false := by
  unfold pyStrip at h
  rw [List.getLast?_reverse] at h
  exact dropWhile_head?_not isPySpace _ x h

/-- Stripping is idempotent. -/
theorem pyStrip_idem (s : List Char) : pyStrip (pyStrip s) = pyStrip s := by
  have h1 : (pyStrip s).dropWhile isPySpace = pyStrip s :=
    dropWhile_eq_self_of_head? _ _ (pyStrip_head?_not s)
  have h2 : (pyStrip s).reverse.dropWhile isPySpace = (pyStrip s).reverse := by
    apply dropWhile_eq_self_of_head?
    intro x hx
    rw [List.head?_reverse] at hx
    exact pyStrip_getLast?_not s x hx
  show (((pyStrip s).dropWhile isPySpace).reverse.dropWhile isPySpace).reverse = pyStrip s
  rw [h1, h2, List.reverse_reverse]

/-- The stripped string sits inside the original string. -/
theorem pyStrip_inside (s : List Char) : ∃ u v, s = u ++ pyStrip s ++ v := by
  refine ⟨s.takeWhile isPySpace, ((s.dropWhile isPySpace).reverse.takeWhile isPySpace).reverse, ?_⟩
  conv_lhs => rw [← List.takeWhile_append_dropWhile isPySpace s]
  rw [List.append_assoc]
  congr 1
  have h1 : (s.dropWhile isPySpace).reverse =
      (s.dropWhile isPySpace).reverse.takeWhile isPySpace ++
        (s.dropWhile isPySpace).reverse.dropWhile isPySpace :=
    (List.takeWhile_append_dropWhile isPySpace _).symm
  have h2 := congrArg List.reverse h1
  rw [List.reverse_reverse, List.reverse_append] at h2
  exact h2

/-- A non-empty stripped string contains a non-whitespace character. -/
theorem pyStrip_any_not_space (s : List Char) (h : pyStrip s ≠ []) :
    (pyStrip s).any (fun c => !(isPySpace c)) = true := by
  obtain ⟨x, hx⟩ : ∃ x, (pyStrip s).getLast? = some x := by
    cases hg : (pyStrip s).getLast? with
    | none => exact absurd (List.getLast?_eq_none_iff.mp hg) h
    | some y => exact ⟨y, rfl⟩
  have hmem := mem_of_getLast?_eq _ _ hx
  have hns := pyStrip_getLast?_not s x hx
  exact List.any_eq_true.mpr ⟨x, hmem, by simp [hns]⟩

/-! Order preservation -/

theorem appearsInOrder_mono (ps : List (List Char)) (x t : List Char)
    (h : appearsInOrder ps t) : appearsInOrder ps (x ++ t) := by
  cases ps with
  | nil => trivial
  | cons p ps =>
      obtain ⟨u, v, ht, hr⟩ := h
      exact ⟨x ++ u, v, by rw [ht]; simp [List.append_assoc], hr⟩

theorem appearsInOrder_map_pyStrip :
    ∀ (ps : List (List Char)) (t : List Char),
      appearsInOrder ps t → appearsInOrder (ps.map pyStrip) t := by
  intro ps
  induction ps with
  | nil => intro t _; trivial
  | cons p ps ih =>
      intro t h
      obtain ⟨u, v, ht, hr⟩ := h
      obtain ⟨e1, e2, hp⟩ := pyStrip_inside p
      have ht2 : t = (u ++ e1) ++ pyStrip p ++ (e2 ++ v) := by
        rw [ht]
        conv_lhs => rw [hp]
        simp [List.append_assoc]
      exact ⟨u ++ e1, e2 ++ v, ht2, appearsInOrder_mono _ _ _ (ih v hr)⟩

theorem appearsInOrder_filter (q : List Char → Bool) :
    ∀ (ps : List (List Char)) (t : List Char),
      appearsInOrder ps t → appearsInOrder (ps.filter q) t := by
  intro ps
  induction ps with
  | nil => intro t _; trivial
  | cons p ps ih =>
      intro t h
      obtain ⟨u, v, ht, hr⟩ := h
      by_cases hq : q p
      · rw [List.filter_cons_of_pos hq]
        exact ⟨u, v, ht, ih v hr⟩
      · rw [List.filter_cons_of_neg (by simpa using hq)]
        rw [ht]
        exact appearsInOrder_mono _ (u ++ p) _ (ih v hr)

theorem appearsInOrder_joinSep (sep : List Char) :
    ∀ ps : List (List Char), appearsInOrder ps (joinSep sep ps) := by
  intro ps
  induction ps with
  | nil => trivial
  | cons p ps ih =>
      cases ps with
      | nil => exact ⟨[], [], by simp [joinSep], trivial⟩
      | cons p2 ps2 =>
          refine ⟨[], sep ++ joinSep sep (p2 :: ps2), ?_, ?_⟩
          · simp [joinSep]
          · exact appearsInOrder_mono _ sep _ ih

theorem appearsInOrder_interleave :
    ∀ (ps ss : List (List Char)), appearsInOrder ps (interleave ps ss) := by
  intro ps
  induction ps with
  | nil => intro ss; trivial
  | cons p ps ih =>
      intro ss
      cases ss with
      | nil => exact ⟨[], interleave ps [], by simp [interleave], ih []⟩
      | cons s ss =>
          exact ⟨[], s ++ interleave ps ss, by simp [interleave],
            appearsInOrder_mono _ s _ (ih ss)⟩

/-! Reconstructing the text from the split -/

theorem strStartsWith_append :
    ∀ (pre s : List Char), strStartsWith s pre = true → pre ++ s.drop pre.length = s := by
  intro pre
  induction pre with
  | nil => intro s _; simp
  | cons d pre ih =>
      intro s h
      cases s with
      | nil => simp [strStartsWith] at h
      | cons c s' =>
          simp only [strStartsWith, Bool.and_eq_true, beq_iff_eq] at h
          obtain ⟨rfl, h2⟩ := h
          simpa using ih s' h2

theorem splitOnGo_ne_nil (d : Char) (ds : List Char) :
    ∀ (t acc : List Char), splitOnGo d ds t acc ≠ [] := by
  intro t acc
  induction t, acc using splitOnGo.induct d ds with
  | case1 acc => simp [splitOnGo]
  | case2 c rest acc hm ih => simp [splitOnGo, hm]
  | case3 c rest acc hm ih => simpa [splitOnGo, hm] using ih

theorem joinSep_cons_of_ne_nil (sep p : List Char) (ps : List (List Char)) (h : ps ≠ []) :
    joinSep sep (p :: ps) = p ++ sep ++ joinSep sep ps := by
  cases ps with
  | nil => exact absurd rfl h
  | cons p2 ps2 => rfl

theorem splitOnGo_reconstruct (d : Char) (ds : List Char) :
    ∀ (t acc : List Char),
      joinSep (d :: ds) (splitOnGo d ds t acc) = acc.reverse ++ t := by
  intro t acc
  induction t, acc using splitOnGo.induct d ds with
  | case1 acc => simp [splitOnGo, joinSep]
  | case2 c rest acc hm ih =>
      rw [splitOnGo]
      simp only [hm, if_true]
      rw [joinSep_cons_of_ne_nil _ _ _ (splitOnGo_ne_nil d ds _ _), ih]
      have hd : (d :: ds) ++ (c :: rest).drop (d :: ds).length = c :: rest :=
        strStartsWith_append (d :: ds) (c :: rest) hm
      simp only [List.length_cons, List.drop_succ_cons] at hd
      simp only [List.reverse_nil, List.nil_append, List.append_assoc]
      rw [hd]
  | case3 c rest acc hm ih =>
      rw [splitOnGo]
      simp only [hm, if_false, Bool.false_eq_true]
      rw [ih]
      simp

theorem pySplitOn_reconstruct (d : Char) (ds t : List Char) :
    joinSep (d :: ds) (pySplitOn (d :: ds) t) = t := by
  simpa using splitOnGo_reconstruct d ds t []

theorem lastIdxOf_lt (ch : Char) :
    ∀ (l : List Char) (i : Nat), lastIdxOf ch l = some i → i < l.length := by
  intro l
  induction l with
  | nil => simp [lastIdxOf]
  | cons c t ih =>
      intro i h
      cases hm : lastIdxOf ch t with
      | some j =>
          have hj := ih j hm
          simp only [lastIdxOf, hm, Option.some.injEq] at h
          simp only [List.length_cons]
          omega
      | none =>
          by_cases hc : c == ch
          · simp only [lastIdxOf, hm, hc, if_true, Option.some.injEq] at h
            simp only [List.length_cons]
            omega
          · simp [lastIdxOf, hm, hc] at h

theorem blankMatch_bounds (l : List Char) (n : Nat) (h : blankMatch l = some n) :
    2 ≤ n ∧ n ≤ l.length := by
  rw [blankMatch.eq_def] at h
  split at h
  · rename_i rest
    cases hm : lastIdxOf '\n' (rest.takeWhile isPySpace) with
    | none => rw [hm] at h; simp at h
    | some i =>
        rw [hm] at h
        simp only [Option.some.injEq] at h
        have hi := lastIdxOf_lt '\n' _ i hm
        have hlen : (rest.takeWhile isPySpace).length ≤ rest.length :=
          (List.takeWhile_sublist isPySpace).length_le
        simp only [List.length_cons]
        omega
  · simp at h

theorem reSplitGo_reconstruct :
    ∀ (t acc : List Char),
      interleave (reSplitGo t acc).1 (reSplitGo t acc).2 = acc.reverse ++ t := by
  intro t acc
  induction t, acc using reSplitGo.induct with
  | case1 acc => simp [reSplitGo, interleave]
  | case2 c rest acc n hm ih =>
      obtain ⟨h2, hle⟩ := blankMatch_bounds _ _ hm
      have htd : (c :: rest).take n ++ rest.drop (n - 1) = c :: rest := by
        cases n with
        | zero => exact absurd h2 (by omega)
        | succ m =>
            simp only [List.take_succ_cons, Nat.add_sub_cancel, List.cons_append,
              List.cons.injEq, true_and]
            exact rest.take_append_drop m
      simp only [reSplitGo, hm, interleave]
      rw [ih]
      simp only [List.reverse_nil, List.nil_append]
      rw [List.append_assoc, htd]
  | case3 c rest acc hm ih =>
      simp only [reSplitGo, hm]
      rw [ih]
      simp

/-- The post-processing `strip`-and-drop-empties step only yields stripped,
non-empty, non-whitespace-only segments. -/
theorem stripFilter_mem (raw : List (List Char)) (p : List Char)
    (hp : p ∈ (raw.map pyStrip).filter (fun q => !q.isEmpty)) :
    pyStrip p = p ∧ p ≠ [] ∧ p.any (fun c => !(isPySpace c)) = true := by
  rw [List.mem_filter] at hp
  obtain ⟨hmap, hne⟩ := hp
  rw [List.mem_map] at hmap
  obtain ⟨x, _, rfl⟩ := hmap
  have hne2 : pyStrip x ≠ [] := by
    intro hnil
    rw [hnil] at hne
    simp at hne
  exact ⟨pyStrip_idem x, hne2, pyStrip_any_not_space x hne2⟩

/-- The post-processing step preserves order of appearance in the text. -/
theorem stripFilter_appears (raw : List (List Char)) (t : List Char)
    (h : appearsInOrder raw t) :
    appearsInOrder ((raw.map pyStrip).filter (fun q => !q.isEmpty)) t :=
  appearsInOrder_filter _ _ _ (appearsInOrder_map_pyStrip _ _ h)

/-- C7: for every input text, splitting in mode `blankline` or in any mode
`delimiter:<token>` with a non-empty token succeeds and returns only segments
that are non-empty and not whitespace-only after trimming (each segment is
already trimmed), and the segments appear in the same relative order as in
the source text. -/
theorem C7_split_segments (text mode : List Char) (h : validModeB mode = true) :
    ∃ parts, split_paragraphs text mode = .ok parts ∧
      (∀ p ∈ parts, pyStrip p = p ∧ p ≠ [] ∧ p.any (fun c => !(isPySpace c)) = true) ∧
      appearsInOrder parts text := by
  by_cases hb : mode = ("blankline").data
  · refine ⟨((reSplitGo text []).1.map pyStrip).filter (fun q => !q.isEmpty),
      by rw [split_paragraphs, if_pos hb], fun p hp => stripFilter_mem _ p hp, ?_⟩
    have hrec := reSplitGo_reconstruct text []
    simp only [List.reverse_nil, List.nil_append] at hrec
    have h1 := appearsInOrder_interleave (reSplitGo text []).1 (reSplitGo text []).2
    rw [hrec] at h1
    exact stripFilter_appears _ _ h1
  · simp only [validModeB, Bool.or_eq_true, beq_iff_eq, Bool.and_eq_true,
      decide_eq_true_eq] at h
    rcases h with h | ⟨hpre, hlen⟩
    · exact absurd h hb
    cases hd : mode.drop ((("delimiter:").data).length) with
    | nil =>
        have h1 : mode.length ≤ 10 := by simpa using List.drop_eq_nil_iff.mp hd
        have h2 : 10 < mode.length := by simpa using hlen
        omega
    | cons d ds =>
        have he : split_paragraphs text mode =
            .ok (((pySplitOn (d :: ds) text).map pyStrip).filter (fun q => !q.isEmpty)) := by
          rw [split_paragraphs, if_neg hb, if_pos hpre]
          simp only [hd, List.isEmpty_cons, Bool.false_eq_true, if_false]
        refine ⟨_, he, fun p hp => stripFilter_mem _ p hp, ?_⟩
        have hrec := pySplitOn_reconstruct d ds text
        have h1 := appearsInOrder_joinSep (d :: ds) (pySplitOn (d :: ds) text)
        rw [hrec] at h1
        exact stripFilter_appears _ _ h1

/-- Witness for C7 at a concrete text and mode. -/
theorem C7_split_segments_witness :
    ∃ parts, split_paragraphs ("One\n\nTwo").data (("blankline").data) = .ok parts ∧
      (∀ p ∈ parts, pyStrip p = p ∧ p ≠ [] ∧ p.any (fun c => !(isPySpace c)) = true) ∧
      appearsInOrder parts (("One\n\nTwo").data) :=
  C7_split_segments (("One\n\nTwo").data) (("blankline").data) (by decide)

/-! Lemmas about batch planning -/

theorem range'_map_shift {α : Type} (s : Nat) (l : List α) :
    ∀ (m a : Nat),
      (List.range' (a + (s + 1)) m (s + 1)).map (fun i => (l.drop i).take (s + 1)) =
        (List.range' a m (s + 1)).map (fun i => ((l.drop (s + 1)).drop i).take (s + 1)) := by
  intro m
  induction m with
  | zero => intro a; simp
  | succ k ih =>
      intro a
      rw [List.range'_succ, List.range'_succ]
      simp only [List.map_cons]
      congr 1
      · have hc : a + (s + 1) = s + 1 + a := by omega
        rw [List.drop_drop, hc]
      · exact ih (a + (s + 1))

/-- The slice comprehension of `chunked` coincides with the recursive
chunking. -/
theorem chunked_go {α : Type} (s : Nat) :
    ∀ l : List α,
      (List.range' 0 ((l.length + s) / (s + 1)) (s + 1)).map
        (fun i => (l.drop i).take (s + 1)) = chunksGo s l := by
  intro l
  induction l using chunksGo.induct s with
  | case1 =>
      have h0 : (([] : List α).length + s) / (s + 1) = 0 := Nat.div_eq_of_lt (by simp)
      rw [h0]
      simp [chunksGo]
  | case2 a l ih =>
      have hcount : ((a :: l).length + s) / (s + 1) = l.length / (s + 1) + 1 := by
        simp only [List.length_cons]
        have h1 : l.length + 1 + s = l.length + (s + 1) := by omega
        rw [h1, Nat.add_div_right _ (Nat.succ_pos s)]
      rw [hcount, List.range'_succ, List.map_cons]
      rw [chunksGo]
      simp only [List.drop_zero]
      congr 1
      have hshift := range'_map_shift s (a :: l) (l.length / (s + 1)) 0
      have hm : ((l.drop s).length + s) / (s + 1) = l.length / (s + 1) := by
        simp only [List.length_drop]
        by_cases hls : s ≤ l.length
        · rw [Nat.sub_add_cancel hls]
        · have h1 : l.length - s = 0 := by omega
          have h2 : l.length / (s + 1) = 0 := Nat.div_eq_of_lt (by omega)
          have h3 : (0 + s) / (s + 1) = 0 := Nat.div_eq_of_lt (by omega)
          rw [h1, h2, h3]
      rw [hshift, List.drop_succ_cons, ← hm]
      exact ih

theorem chunksGo_eq_nil_iff {α : Type} (s : Nat) (l : List α) :
    chunksGo s l = [] ↔ l = [] := by
  cases l with
  | nil => simp [chunksGo]
  | cons a t => simp [chunksGo]

theorem chunksGo_flatten {α : Type} (s : Nat) :
    ∀ l : List α, (chunksGo s l).flatten = l := by
  intro l
  induction l using chunksGo.induct s with
  | case1 => simp [chunksGo]
  | case2 a l ih =>
      rw [chunksGo]
      simp only [List.flatten_cons, ih, List.take_succ_cons, List.cons_append]
      rw [List.take_append_drop]

theorem chunksGo_dropLast_length {α : Type} (s : Nat) :
    ∀ l : List α, ∀ c ∈ (chunksGo s l).dropLast, c.length = s + 1 := by
  intro l
  induction l using chunksGo.induct s with
  | case1 => simp [chunksGo]
  | case2 a l ih =>
      intro c hc
      rw [chunksGo] at hc
      cases hr : chunksGo s (l.drop s) with
      | nil => rw [hr] at hc; simp at hc
      | cons r rs =>
          rw [hr, List.dropLast_cons₂, List.mem_cons] at hc
          rcases hc with hc | hc
          · have hne : l.drop s ≠ [] := by
              intro h0
              rw [h0] at hr
              simp [chunksGo] at hr
            have hsl : s < l.length := by
              by_contra hcon
              exact hne (List.drop_eq_nil_iff.mpr (by omega))
            rw [hc]
            simp only [List.length_take, List.length_cons]
            omega
          · exact ih c (hr ▸ hc)

theorem chunksGo_getLast? {α : Type} (s : Nat) :
    ∀ l : List α, l ≠ [] →
      ∃ lb, (chunksGo s l).getLast? = some lb ∧
        lb.length = (if l.length % (s + 1) = 0 then s + 1 else l.length % (s + 1)) := by
  intro l
  induction l using chunksGo.induct s with
  | case1 => intro h; exact absurd rfl h
  | case2 a l ih =>
      intro _
      by_cases hd : l.drop s = []
      · have hll : l.length ≤ s := List.drop_eq_nil_iff.mp hd
        refine ⟨(a :: l).take (s + 1), ?_, ?_⟩
        · rw [chunksGo, hd]
          simp [chunksGo]
        · simp only [List.length_take, List.length_cons]
          by_cases he : l.length = s
          · have hmod : (l.length + 1) % (s + 1) = 0 := by
              rw [he]
              exact Nat.mod_self (s + 1)
            rw [if_pos hmod]
            omega
          · have hlt : l.length + 1 < s + 1 := by omega
            have hmod : (l.length + 1) % (s + 1) = l.length + 1 := Nat.mod_eq_of_lt hlt
            rw [hmod, if_neg (by omega)]
            omega
      · obtain ⟨lb, hlast, hlen⟩ := ih hd
        refine ⟨lb, ?_, ?_⟩
        · rw [chunksGo]
          cases hr : chunksGo s (l.drop s) with
          | nil => exact absurd ((chunksGo_eq_nil_iff s _).mp hr) hd
          | cons r rs =>
              rw [List.getLast?_cons_cons]
              rw [hr] at hlast
              exact hlast
        · have hsl : s < l.length := by
            by_contra hcon
            exact hd (List.drop_eq_nil_iff.mpr (by omega))
          have hmod : (a :: l).length % (s + 1) = (l.drop s).length % (s + 1) := by
            simp only [List.length_cons, List.length_drop]
            have h1 : s + 1 ≤ l.length + 1 := by omega
            rw [Nat.mod_eq_sub_mod h1]
            congr 1
            omega
          rw [hmod]
          exact hlen

theorem chunksGo_length {α : Type} (s : Nat) :
    ∀ l : List α,
      (chunksGo s l).length =
        l.length / (s + 1) + (if l.length % (s + 1) = 0 then 0 else 1) := by
  intro l
  induction l using chunksGo.induct s with
  | case1 => simp [chunksGo]
  | case2 a l ih =>
      rw [chunksGo]
      simp only [List.length_cons, ih]
      by_cases hls : s ≤ l.length
      · have he : l.length + 1 = (l.length - s) + (s + 1) := by omega
        have hdiv : (l.length + 1) / (s + 1) = (l.length - s) / (s + 1) + 1 := by
          rw [he, Nat.add_div_right _ (Nat.succ_pos s)]
        have hmod : (l.length + 1) % (s + 1) = (l.length - s) % (s + 1) := by
          rw [he, Nat.add_mod_right]
        simp only [List.length_drop, hdiv, hmod]
        omega
      · have hd : l.length - s = 0 := by omega
        have hdiv : (l.length + 1) / (s + 1) = if l.length + 1 = s + 1 then 1 else 0 := by
          rcases Nat.lt_or_ge (l.length + 1) (s + 1) with h | h
          · rw [Nat.div_eq_of_lt h, if_neg (by omega)]
          · have he2 : l.length + 1 = s + 1 := by omega
            rw [he2, Nat.div_self (Nat.succ_pos s), if_pos rfl]
        have hmod : (l.length + 1) % (s + 1) = if l.length + 1 = s + 1 then 0 else l.length + 1 := by
          rcases Nat.lt_or_ge (l.length + 1) (s + 1) with h | h
          · rw [Nat.mod_eq_of_lt h, if_neg (by omega)]
          · have he2 : l.length + 1 = s + 1 := by omega
            rw [he2, Nat.mod_self, if_pos rfl]
        have hl0 : (l.drop s).length = 0 := by
          simp only [List.length_drop]
          omega
        rw [hl0, Nat.zero_div, Nat.zero_mod, hdiv]
        simp only [hmod]
        by_cases he3 : l.length + 1 = s + 1
        · simp [he3]
        · simp only [he3, if_false]
          simp

/-- C6: for every document list and `batchSize > 0`, `chunked` returns
batches whose in-order concatenation is exactly the input, every batch except
possibly the last has length `batchSize`, the last batch has length
`len mod batchSize` (or `batchSize` when evenly divisible), and the number of
batches is `len / batchSize` rounded up; `chunked` fails with the
configuration error when `batchSize ≤ 0`. -/
theorem C6_chunk (α : Type) (items : List α) (size : Int) :
    (size ≤ 0 → chunked items size = .error (.valueError chunkSizeMsg)) ∧
    (0 < size → ∃ cs, chunked items size = .ok cs ∧
      cs.flatten = items ∧
      (∀ c ∈ cs.dropLast, c.length = size.toNat) ∧
      cs.length = items.length / size.toNat +
        (if items.length % size.toNat = 0 then 0 else 1) ∧
      (items ≠ [] → ∃ lb, cs.getLast? = some lb ∧
        lb.length = (if items.length % size.toNat = 0 then size.toNat
          else items.length % size.toNat))) := by
  constructor
  · intro hle
    rw [chunked, if_pos hle]
  · intro hpos
    obtain ⟨s, hs⟩ : ∃ s, size.toNat = s + 1 := ⟨size.toNat - 1, by omega⟩
    have hne : ¬(size ≤ 0) := by omega
    refine ⟨chunksGo s items, ?_, ?_, ?_, ?_, ?_⟩
    · rw [chunked, if_neg hne, hs]
      have harg : items.length + (s + 1) - 1 = items.length + s := by omega
      rw [harg, chunked_go s items]
    · exact chunksGo_flatten s items
    · rw [hs]; exact chunksGo_dropLast_length s items
    · rw [hs]; exact chunksGo_length s items
    · rw [hs]; exact chunksGo_getLast? s items

/-- Witness for C6 at a concrete list and both a non-positive and a positive
batch size. -/
theorem C6_chunk_witness :
    chunked ([1, 2, 3] : List ℕ) 0 = .error (.valueError chunkSizeMsg) ∧
    (∃ cs, chunked ([1, 2, 3] : List ℕ) 2 = .ok cs ∧
      cs.flatten = [1, 2, 3] ∧
      (∀ c ∈ cs.dropLast, c.length = (2 : Int).toNat) ∧
      cs.length = ([1, 2, 3] : List ℕ).length / (2 : Int).toNat +
        (if ([1, 2, 3] : List ℕ).length % (2 : Int).toNat = 0 then 0 else 1) ∧
      (([1, 2, 3] : List ℕ) ≠ [] → ∃ lb, cs.getLast? = some lb ∧
        lb.length = (if ([1, 2, 3] : List ℕ).length % (2 : Int).toNat = 0 then (2 : Int).toNat
          else ([1, 2, 3] : List ℕ).length % (2 : Int).toNat))) :=
  ⟨(C6_chunk ℕ [1, 2, 3] 0).1 (by decide), (C6_chunk ℕ [1, 2, 3] 2).2 (by decide)⟩

/-! Lemmas about the transport retry loop -/

theorem countAttempts_nil : countAttempts [] = 0 := rfl

theorem countAttempts_attempt (i : Nat) (evs : List SendEv) :
    countAttempts (SendEv.attempt i :: evs) = countAttempts evs + 1 := by
  simp [countAttempts]

theorem countAttempts_sleep (d : Nat) (evs : List SendEv) :
    countAttempts (SendEv.sleep d :: evs) = countAttempts evs := by
  simp [countAttempts]

theorem sleepsOf_nil : sleepsOf [] = [] := rfl

theorem sleepsOf_attempt (i : Nat) (evs : List SendEv) :
    sleepsOf (SendEv.attempt i :: evs) = sleepsOf evs := by
  simp [sleepsOf]

theorem sleepsOf_sleep (d : Nat) (evs : List SendEv) :
    sleepsOf (SendEv.sleep d :: evs) = d :: sleepsOf evs := by
  simp [sleepsOf]

theorem sleepsOf_sendPattern :
    ∀ (n a : Nat), sleepsOf (sendPattern a n) = (List.range (n - 1)).map (fun i => backoff (a + i))
  | 0, a => by simp [sendPattern, sleepsOf]
  | 1, a => by simp [sendPattern, sleepsOf]
  | (k + 2), a => by
      have ih := sleepsOf_sendPattern (k + 1) (a + 1)
      rw [sendPattern, sleepsOf_attempt, sleepsOf_sleep, ih]
      rw [show k + 2 - 1 = (k + 1 - 1) + 1 from by omega, List.range_succ_eq_map]
      simp only [List.map_cons, Nat.add_zero, List.map_map]
      congr 1
      apply List.map_congr_left
      intro i _
      simp only [Function.comp_apply]
      congr 1
      omega

/-- The events of the retry loop follow the attempt/sleep pattern: at least
one and at most `b + 1` attempts starting at attempt `a`, a backoff sleep
after every attempt but the last. -/
theorem postGo_pattern (r : Nat → HttpOutcome) :
    ∀ (b a : Nat),
      1 ≤ countAttempts (postGo r a b).1 ∧
      countAttempts (postGo r a b).1 ≤ b + 1 ∧
      (postGo r a b).1 = sendPattern a (countAttempts (postGo r a b).1) := by
  intro b
  induction b with
  | zero =>
      intro a
      cases hr : r a <;> simp [postGo, hr, countAttempts, sendPattern]
  | succ b ih =>
      intro a
      have hstep : retryableB (r a) = true →
          (postGo r a (b + 1)).1 =
            SendEv.attempt a :: SendEv.sleep (backoff a) :: (postGo r (a + 1) b).1 := by
        intro hret
        cases hr : r a with
        | success resp => rw [hr] at hret; simp [retryableB] at hret
        | httpError c body =>
            have hm : c ∈ retryCodes := by
              rw [hr] at hret
              simpa [retryableB] using hret
            simp [postGo, hr, hm]
        | urlError m => simp [postGo, hr]
      by_cases hret : retryableB (r a) = true
      · have he := hstep hret
        obtain ⟨h1, h2, h3⟩ := ih (a + 1)
        obtain ⟨k, hk⟩ : ∃ k, countAttempts (postGo r (a + 1) b).1 = k + 1 :=
          ⟨countAttempts (postGo r (a + 1) b).1 - 1, by omega⟩
        have hcnt : countAttempts (postGo r a (b + 1)).1 = k + 2 := by
          rw [he, countAttempts_attempt, countAttempts_sleep, hk]
        refine ⟨by omega, by omega, ?_⟩
        rw [hcnt, he, sendPattern, h3, hk]
      · cases hr : r a with
        | success resp => simp [postGo, hr, countAttempts, sendPattern]
        | httpError c body =>
            have hm : c ∉ retryCodes := by
              rw [hr] at hret
              simpa [retryableB] using hret
            simp [postGo, hr, hm, countAttempts, sendPattern]
        | urlError m => rw [hr] at hret; simp [retryableB] at hret

theorem post_json_eq_postGo (r : Nat → HttpOutcome) (n : Nat) :
    post_json r (n : Int) = postGo r 0 n := by
  rw [post_json, if_neg (by omega)]
  norm_num

/-- C4: with a non-negative retry budget, `post_json` performs at least one
and at most `retries + 1` HTTP attempts; the events follow the
attempt/sleep/attempt pattern (so no wait follows the final attempt), and the
recorded sleeps are exactly `2^0, 2^1, ...` half-seconds — the sleep before
retry attempt `k` (1-indexed) is `2^(k-1)` half-seconds, i.e.
`0.5 * 2^(k-1)` seconds. -/
theorem C4_retry_backoff (r : Nat → HttpOutcome) (retries : Nat) :
    1 ≤ countAttempts (post_json r (retries : Int)).1 ∧
    countAttempts (post_json r (retries : Int)).1 ≤ retries + 1 ∧
    (post_json r (retries : Int)).1 =
      sendPattern 0 (countAttempts (post_json r (retries : Int)).1) ∧
    sleepsOf (post_json r (retries : Int)).1 =
      (List.range (countAttempts (post_json r (retries : Int)).1 - 1)).map
        (fun k => backoff k) := by
  rw [post_json_eq_postGo]
  obtain ⟨h1, h2, h3⟩ := postGo_pattern r retries 0
  refine ⟨h1, h2, h3, ?_⟩
  refine (congrArg sleepsOf h3).trans ?_
  refine (sleepsOf_sendPattern _ 0).trans ?_
  simp

/-- C9: with a negative retry budget, `for attempt in range(retries + 1)`
never runs its body: `post_json` performs no HTTP attempt, does not sleep,
and raises the generic `RuntimeError` that carries no status or cause. -/
theorem C9_negative_retries (r : Nat → HttpOutcome) (retries : Int) (h : retries < 0) :
    post_json r retries = ([], .error (.runtimeError afterRetriesMsg)) := by
  rw [post_json, if_pos h]

/-- Witness for C9 at a concrete retry budget of `-1`. -/
theorem C9_negative_retries_witness :
    post_json (fun _ => HttpOutcome.urlError (("down").data)) (-1) =
      ([], .error (.runtimeError afterRetriesMsg)) :=
  C9_negative_retries _ (-1) (by decide)

/-- Skipping a prefix of retryable outcomes: if the first `j` outcomes are
retryable and `j ≤ b`, the loop reaches attempt `a + j` having made `j`
attempts. -/
theorem postGo_skip (r : Nat → HttpOutcome) :
    ∀ (j a b : Nat), j ≤ b → (∀ i, i < j → retryableB (r (a + i)) = true) →
      (postGo r a b).2 = (postGo r (a + j) (b - j)).2 ∧
      countAttempts (postGo r a b).1 =
        j + countAttempts (postGo r (a + j) (b - j)).1 := by
  intro j
  induction j with
  | zero => intro a b _ _; simp
  | succ k ih =>
      intro a b hj hpre
      have hra : retryableB (r a) = true := by
        have h0 := hpre 0 (by omega)
        simpa using h0
      obtain ⟨b', rfl⟩ : ∃ b', b = b' + 1 := ⟨b - 1, by omega⟩
      have hstep : (postGo r a (b' + 1)).2 = (postGo r (a + 1) b').2 ∧
          countAttempts (postGo r a (b' + 1)).1 =
            1 + countAttempts (postGo r (a + 1) b').1 := by
        cases hr : r a with
        | success resp => rw [hr] at hra; simp [retryableB] at hra
        | httpError c body =>
            have hm : c ∈ retryCodes := by
              rw [hr] at hra
              simpa [retryableB] using hra
            constructor
            · simp [postGo, hr, hm]
            · simp [postGo, hr, hm, countAttempts_attempt, countAttempts_sleep]
              omega
        | urlError m =>
            constructor
            · simp [postGo, hr]
            · simp [postGo, hr, countAttempts_attempt, countAttempts_sleep]
              omega
      have ihs := ih (a + 1) b' (by omega) (fun i hi => by
        have hp := hpre (i + 1) (by omega)
        have he : a + (i + 1) = a + 1 + i := by omega
        rw [he] at hp
        exact hp)
      have e1 : a + 1 + k = a + (k + 1) := by omega
      have e2 : b' - k = b' + 1 - (k + 1) := by omega
      constructor
      · rw [hstep.1, ihs.1, e1, e2]
      · rw [hstep.2, ihs.2, e1, e2]
        omega

/-- C5: suppose the first `j ≤ retries` attempt outcomes are all retryable.
Then at attempt `j`: a non-retryable HTTP status fails at once (attempt
`j + 1` is the last) with the error carrying the status and body; a
retryable outcome with attempts remaining leads to at least one further
attempt; at exhaustion (`j = retries`) a retryable status fails carrying
status and body, and a network failure fails carrying its cause, after
exactly `retries + 1` attempts. -/
theorem C5_attempt_outcomes (r : Nat → HttpOutcome) (n j : Nat) (hj : j ≤ n)
    (hpre : ∀ i, i < j → retryableB (r i) = true) :
    (∀ c body, r j = .httpError c body → retryCodes.contains c = false →
        (post_json r (n : Int)).2 = .error (.runtimeError (httpErrMsg c body)) ∧
        countAttempts (post_json r (n : Int)).1 = j + 1) ∧
    (retryableB (r j) = true → j < n →
        j + 2 ≤ countAttempts (post_json r (n : Int)).1) ∧
    (j = n → ∀ c body, r j = .httpError c body → retryCodes.contains c = true →
        (post_json r (n : Int)).2 = .error (.runtimeError (httpErrMsg c body)) ∧
        countAttempts (post_json r (n : Int)).1 = n + 1) ∧
    (j = n → ∀ m, r j = .urlError m →
        (post_json r (n : Int)).2 = .error (.runtimeError (netErrMsg m)) ∧
        countAttempts (post_json r (n : Int)).1 = n + 1) := by
  rw [post_json_eq_postGo]
  obtain ⟨hres, hcnt⟩ := postGo_skip r j 0 n hj (by simpa using hpre)
  simp only [Nat.zero_add] at hres hcnt
  refine ⟨?_, ?_, ?_, ?_⟩
  · intro c body hr hc
    have hmn : c ∉ retryCodes := by simpa using hc
    have hstep : (postGo r j (n - j)).2 = .error (.runtimeError (httpErrMsg c body)) ∧
        countAttempts (postGo r j (n - j)).1 = 1 := by
      cases hnj : n - j with
      | zero => simp [postGo, hr, countAttempts]
      | succ b' => simp [postGo, hr, hmn, countAttempts]
    exact ⟨hres.trans hstep.1, by rw [hcnt, hstep.2]⟩
  · intro hret hlt
    obtain ⟨b', hb⟩ : ∃ b', n - j = b' + 1 := ⟨n - j - 1, by omega⟩
    have h2 : 2 ≤ countAttempts (postGo r j (n - j)).1 := by
      rw [hb]
      cases hr : r j with
      | success resp => rw [hr] at hret; simp [retryableB] at hret
      | httpError c body =>
          have hm : c ∈ retryCodes := by
            rw [hr] at hret
            simpa [retryableB] using hret
          have h1 := (postGo_pattern r b' (j + 1)).1
          simp [postGo, hr, hm, countAttempts_attempt, countAttempts_sleep]
          omega
      | urlError m =>
          have h1 := (postGo_pattern r b' (j + 1)).1
          simp [postGo, hr, countAttempts_attempt, countAttempts_sleep]
          omega
    omega
  · intro hjn c body hr hc
    have hnj : n - j = 0 := by omega
    have hstep : postGo r j 0 = ([SendEv.attempt j], .error (.runtimeError (httpErrMsg c body))) := by
      simp [postGo, hr]
    rw [hnj] at hres hcnt
    rw [hstep] at hres hcnt
    refine ⟨hres, ?_⟩
    rw [hcnt]
    simp [countAttempts]
    omega
  · intro hjn m hr
    have hnj : n - j = 0 := by omega
    have hstep : postGo r j 0 = ([SendEv.attempt j], .error (.runtimeError (netErrMsg m))) := by
      simp [postGo, hr]
    rw [hnj] at hres hcnt
    rw [hstep] at hres hcnt
    refine ⟨hres, ?_⟩
    rw [hcnt]
    simp [countAttempts]
    omega

/-- Witness for C5 at a concrete non-retryable outcome. -/
theorem C5_attempt_outcomes_witness :
    (post_json (fun _ => HttpOutcome.httpError 404 (("nf").data)) ((0 : Nat) : Int)).2 =
      .error (.runtimeError (httpErrMsg 404 (("nf").data))) ∧
    countAttempts (post_json (fun _ => HttpOutcome.httpError 404 (("nf").data)) ((0 : Nat) : Int)).1 =
      0 + 1 :=
  (C5_attempt_outcomes (fun _ => HttpOutcome.httpError 404 (("nf").data)) 0 0 (Nat.le_refl 0)
    (fun _ hi => absurd hi (by omega))).1 404 (("nf").data) rfl (by decide)

/-! Lemmas about the document loaders -/

/-- With a valid mode, `split_paragraphs` always succeeds. -/
theorem split_paragraphs_total (t mode : List Char) (h : validModeB mode = true) :
    ∃ ps, split_paragraphs t mode = .ok ps := by
  by_cases hb : mode = ("blankline").data
  · exact ⟨_, by rw [split_paragraphs, if_pos hb]⟩
  · simp only [validModeB, Bool.or_eq_true, beq_iff_eq, Bool.and_eq_true,
      decide_eq_true_eq] at h
    rcases h with h | ⟨hpre, hlen⟩
    · exact absurd h hb
    cases hd : mode.drop ((("delimiter:").data).length) with
    | nil =>
        have h1 : mode.length ≤ 10 := by simpa using List.drop_eq_nil_iff.mp hd
        have h2 : 10 < mode.length := by simpa using hlen
        omega
    | cons d ds =>
        refine ⟨((pySplitOn (d :: ds) t).map pyStrip).filter (fun p => !p.isEmpty), ?_⟩
        rw [split_paragraphs, if_neg hb, if_pos hpre]
        simp only [hd, List.isEmpty_cons, Bool.false_eq_true, if_false]

/-- With an invalid mode, `split_paragraphs` raises the corresponding
configuration error, before looking at the text. -/
theorem split_paragraphs_invalid (t mode : List Char) (h : validModeB mode = false) :
    split_paragraphs t mode = .error (splitConfigErr mode) := by
  simp only [validModeB, Bool.or_eq_false_iff, beq_eq_false_iff_ne, ne_eq,
    Bool.and_eq_false_iff] at h
  obtain ⟨hb, hrest⟩ := h
  rw [split_paragraphs, if_neg hb, splitConfigErr]
  by_cases hpre : strStartsWith mode (("delimiter:").data) = true
  · rw [if_pos hpre, if_pos hpre]
    have hlen : ¬(("delimiter:").data.length < mode.length) := by
      rcases hrest with h1 | h1
      · rw [hpre] at h1; simp at h1
      · simpa using h1
    have hnil : mode.drop ((("delimiter:").data).length) = [] :=
      List.drop_eq_nil_iff.mpr (by omega)
    rw [hnil]
    rfl
  · rw [if_neg (by simpa using hpre), if_neg (by simpa using hpre)]

/-- With an invalid mode, building any document fails with the configuration
error. -/
theorem build_doc_invalid (e : FileEntry) (lang mode : List Char)
    (h : validModeB mode = false) :
    build_doc_from_text e lang mode = .error (splitConfigErr mode) := by
  rw [build_doc_from_text, split_paragraphs_invalid e.content mode h]

/-- A file whose split yields zero paragraphs makes `build_doc_from_text`
fail with the empty-document error. -/
theorem build_doc_empty (e : FileEntry) (lang mode : List Char)
    (h : split_paragraphs e.content mode = .ok []) :
    build_doc_from_text e lang mode = .error (.valueError (emptyDocMsg e.name)) := by
  rw [build_doc_from_text, h]
  rfl

/-- With a valid mode, if some file in the list yields zero paragraphs, the
per-file loop aborts with the empty-document error of some file in the list
(no partial document list is produced). -/
theorem loadFilesGo_err_of_empty (lang mode : List Char) (h : validModeB mode = true) :
    ∀ files : List FileEntry,
      (∃ e ∈ files, split_paragraphs e.content mode = .ok []) →
      ∃ e ∈ files,
        (loadFilesGo lang mode files).2 = .error (.valueError (emptyDocMsg e.name)) := by
  intro files
  induction files with
  | nil => rintro ⟨e, he, _⟩; simp at he
  | cons f fs ih =>
      rintro ⟨e, he, hsplit⟩
      cases hb : build_doc_from_text f lang mode with
      | error err =>
          have herr : err = .valueError (emptyDocMsg f.name) := by
            obtain ⟨ps, hps⟩ := split_paragraphs_total f.content mode h
            simp only [build_doc_from_text, hps] at hb
            by_cases hE : ps.isEmpty
            · rw [if_pos hE] at hb
              exact (Except.error.injEq _ _).mp hb.symm
            · rw [if_neg hE] at hb
              exact absurd hb (by simp)
          refine ⟨f, List.mem_cons_self f fs, ?_⟩
          rw [loadFilesGo, hb, herr]
      | ok d =>
          rcases List.mem_cons.mp he with rfl | he2
          · simp [build_doc_from_text, hsplit] at hb
          · obtain ⟨e2, he2m, hr⟩ := ih ⟨e, he2, hsplit⟩
            refine ⟨e2, List.mem_cons_of_mem f he2m, ?_⟩
            rw [loadFilesGo, hb]
            show ((loadFilesGo lang mode fs).2.map (fun ds => d :: ds)) = _
            rw [hr]
            rfl

/-- Every event of the per-file loop is a file read. -/
theorem loadFilesGo_events (lang mode : List Char) :
    ∀ (files : List FileEntry) (ev : Ev),
      ev ∈ (loadFilesGo lang mode files).1 → ∃ nm, ev = Ev.readFile nm := by
  intro files
  induction files with
  | nil => intro ev hev; simp [loadFilesGo] at hev
  | cons f fs ih =>
      intro ev hev
      cases hb : build_doc_from_text f lang mode with
      | error err =>
          rw [loadFilesGo, hb] at hev
          simp only [List.mem_singleton] at hev
          exact ⟨f.name, hev⟩
      | ok d =>
          rw [loadFilesGo, hb] at hev
          simp only [List.mem_cons] at hev
          rcases hev with rfl | hev
          · exact ⟨f.name, rfl⟩
          · exact ih ev hev

/-- With an invalid mode and at least one matching file, the per-file loop
reads the first file and then aborts with the configuration error. -/
theorem loadFilesGo_invalid (lang mode : List Char) (h : validModeB mode = false)
    (f : FileEntry) (fs : List FileEntry) :
    loadFilesGo lang mode (f :: fs) =
      ([Ev.readFile f.name], .error (splitConfigErr mode)) := by
  rw [loadFilesGo, build_doc_invalid f lang mode h]

/-- C8: the directory loader fails with the missing-directory error when the
input is not a directory, with the no-files error when no regular file has a
recognized extension, and — for a valid split mode — with the empty-document
error of some matching file when any matching file splits into zero
paragraphs; in every case it returns an error, never a partial document
list. -/
theorem C8_dir_loader (entries : List FileEntry) (lang mode : List Char) :
    (∀ input : PathState, (∀ es, input ≠ PathState.dir es) →
      (load_documents_from_dir input lang mode).2 = .error (.valueError dirNotFoundMsg)) ∧
    (matchingFiles entries = [] →
      (load_documents_from_dir (PathState.dir entries) lang mode).2 =
        .error (.valueError noFilesMsg)) ∧
    (validModeB mode = true →
      (∃ e ∈ matchingFiles entries, split_paragraphs e.content mode = .ok []) →
      ∃ e ∈ matchingFiles entries,
        (load_documents_from_dir (PathState.dir entries) lang mode).2 =
          .error (.valueError (emptyDocMsg e.name))) := by
  refine ⟨?_, ?_, ?_⟩
  · intro input hne
    cases input with
    | dir es => exact absurd rfl (hne es)
    | file c => rfl
    | missing => rfl
  · intro hm
    rw [load_documents_from_dir, hm]
    rfl
  · intro hv hex
    obtain ⟨e, hem, hr⟩ := loadFilesGo_err_of_empty lang mode hv (matchingFiles entries) hex
    refine ⟨e, hem, ?_⟩
    rw [load_documents_from_dir]
    simp only [hr]

/-- Witness for C8: a directory holding one whitespace-only text file. -/
theorem C8_dir_loader_witness :
    ∃ e ∈ matchingFiles [⟨("a.txt").data, true, ("   ").data⟩],
      (load_documents_from_dir
          (PathState.dir [⟨("a.txt").data, true, ("   ").data⟩])
          (("en").data) (("blankline").data)).2 =
        .error (.valueError (emptyDocMsg e.name)) :=
  (C8_dir_loader [⟨("a.txt").data, true, ("   ").data⟩]
      (("en").data) (("blankline").data)).2.2 (by decide)
    ⟨⟨("a.txt").data, true, ("   ").data⟩, by decide,
      by simp [split_paragraphs, reSplitGo, blankMatch, lastIdxOf, isPySpace, pyStrip]⟩

/-! Lemmas about the orchestrator -/

/-- Transport failures are always `RuntimeError`s. -/
theorem postGo_error_runtime (r : Nat → HttpOutcome) :
    ∀ (b a : Nat) (e : PyErr), (postGo r a b).2 = .error e →
      ∃ m, e = .runtimeError m := by
  intro b
  induction b with
  | zero =>
      intro a e h
      cases hr : r a with
      | success resp => simp [postGo, hr] at h
      | httpError c body =>
          simp only [postGo, hr, Except.error.injEq] at h
          exact ⟨httpErrMsg c body, h.symm⟩
      | urlError m =>
          simp only [postGo, hr, Except.error.injEq] at h
          exact ⟨netErrMsg m, h.symm⟩
  | succ b ih =>
      intro a e h
      cases hr : r a with
      | success resp => simp [postGo, hr] at h
      | httpError c body =>
          by_cases hm : c ∈ retryCodes
          · have h2 : (postGo r (a + 1) b).2 = .error e := by
              simpa [postGo, hr, hm] using h
            exact ih (a + 1) e h2
          · have hval : (postGo r a (b + 1)).2 =
                .error (.runtimeError (httpErrMsg c body)) := by
              simp [postGo, hr, hm]
            rw [hval] at h
            simp only [Except.error.injEq] at h
            exact ⟨httpErrMsg c body, h.symm⟩
      | urlError m =>
          have h2 : (postGo r (a + 1) b).2 = .error e := by
            simpa [postGo, hr] using h
          exact ih (a + 1) e h2

theorem post_json_error_runtime (r : Nat → HttpOutcome) (retries : Int) (e : PyErr)
    (h : (post_json r retries).2 = .error e) : ∃ m, e = .runtimeError m := by
  by_cases hneg : retries < 0
  · rw [post_json, if_pos hneg] at h
    simp only [Except.error.injEq] at h
    exact ⟨afterRetriesMsg, h.symm⟩
  · rw [post_json, if_neg hneg] at h
    exact postGo_error_runtime r retries.toNat 0 e h

/-- A successful `post_json` result is one of the supplied attempt
outcomes. -/
theorem postGo_ok_source (r : Nat → HttpOutcome) :
    ∀ (b a : Nat) (x : BatchResp), (postGo r a b).2 = .ok x →
      ∃ k, r k = .success x := by
  intro b
  induction b with
  | zero =>
      intro a x h
      cases hr : r a with
      | success resp =>
          simp only [postGo, hr, Except.ok.injEq] at h
          exact ⟨a, by rw [hr, h]⟩
      | httpError c body => simp [postGo, hr] at h
      | urlError m => simp [postGo, hr] at h
  | succ b ih =>
      intro a x h
      cases hr : r a with
      | success resp =>
          simp only [postGo, hr, Except.ok.injEq] at h
          exact ⟨a, by rw [hr, h]⟩
      | httpError c body =>
          by_cases hm : c ∈ retryCodes
          · exact ih (a + 1) x (by simpa [postGo, hr, hm] using h)
          · simp [postGo, hr, hm] at h
      | urlError m => exact ih (a + 1) x (by simpa [postGo, hr] using h)

theorem post_json_ok_source (r : Nat → HttpOutcome) (retries : Int) (x : BatchResp)
    (h : (post_json r retries).2 = .ok x) : ∃ k, r k = .success x := by
  by_cases hneg : retries < 0
  · rw [post_json, if_pos hneg] at h
    simp at h
  · rw [post_json, if_neg hneg] at h
    exact postGo_ok_source r retries.toNat 0 x h

theorem sendEvToEv_ne_print (idx : Nat) (se : SendEv) (pl : PrintLine) :
    sendEvToEv idx se ≠ Ev.print pl := by
  cases se <;> simp [sendEvToEv]

/-- Every completed batch loop either aborts with a transport
`RuntimeError`, or finishes by printing the final totals and returning
status 0 exactly when the accumulated failed total is 0 (1 otherwise). -/
theorem sendBatches_spec (resp : Nat → Nat → HttpOutcome) (retries : Int) (total : Nat) :
    ∀ (bs : List (List JVal)) (idx : Nat) (tc tf : Int),
      (∃ m, (sendBatches resp retries total idx bs tc tf).2 =
        .error (.runtimeError m)) ∨
      (∃ tc2 tf2,
        (sendBatches resp retries total idx bs tc tf).2 =
          .ok (if tf2 = 0 then 0 else 1) ∧
        Ev.print (PrintLine.done tc2 tf2) ∈
          (sendBatches resp retries total idx bs tc tf).1) := by
  intro bs
  induction bs with
  | nil =>
      intro idx tc tf
      right
      exact ⟨tc, tf, rfl, by simp [sendBatches]⟩
  | cons b rest ih =>
      intro idx tc tf
      cases hs : (post_json (resp idx) retries).2 with
      | error e =>
          left
          obtain ⟨m, hm⟩ := post_json_error_runtime (resp idx) retries e hs
          refine ⟨m, ?_⟩
          simp only [sendBatches, hs]
          rw [← hm]
      | ok result =>
          rcases ih (idx + 1) (tc + result.created?.getD 0) (tf + result.failed?.getD 0)
            with ⟨m, hm⟩ | ⟨tc2, tf2, hok, hmem⟩
          · left
            refine ⟨m, ?_⟩
            simp only [sendBatches, hs]
            exact hm
          · right
            refine ⟨tc2, tf2, ?_, ?_⟩
            · simp only [sendBatches, hs]
              exact hok
            · have htr : (sendBatches resp retries total idx (b :: rest) tc tf).1 =
                  ((post_json (resp idx) retries).1.map (sendEvToEv idx) ++
                    Ev.print (PrintLine.batchSummary (idx + 1) total
                      (result.created?.getD 0) (result.failed?.getD 0)) ::
                    (if result.failed?.getD 0 = 0 then [] else detailLines result)) ++
                    (sendBatches resp retries total (idx + 1) rest
                      (tc + result.created?.getD 0)
                      (tf + result.failed?.getD 0)).1 := by
                simp only [sendBatches, hs]
              rw [htr]
              simp [hmem]

/-- When every batch response reports a zero (or absent) failed count, no
per-item detail line is printed. -/
theorem sendBatches_no_details (resp : Nat → Nat → HttpOutcome) (retries : Int)
    (total : Nat)
    (hz : ∀ b k x, resp b k = HttpOutcome.success x → x.failed?.getD 0 = 0) :
    ∀ (bs : List (List JVal)) (idx : Nat) (tc tf : Int) (ix : Option Int)
      (er : List Char),
      Ev.print (PrintLine.detail ix er) ∉
        (sendBatches resp retries total idx bs tc tf).1 := by
  intro bs
  induction bs with
  | nil =>
      intro idx tc tf ix er hmem
      simp [sendBatches] at hmem
  | cons b rest ih =>
      intro idx tc tf ix er hmem
      cases hs : (post_json (resp idx) retries).2 with
      | error e =>
          simp only [sendBatches, hs] at hmem
          obtain ⟨se, _, habs⟩ := List.mem_map.mp hmem
          exact sendEvToEv_ne_print idx se _ habs
      | ok result =>
          have hfail : result.failed?.getD 0 = 0 := by
            obtain ⟨k, hk⟩ := post_json_ok_source (resp idx) retries result hs
            exact hz idx k result hk
          have htr : (sendBatches resp retries total idx (b :: rest) tc tf).1 =
              ((post_json (resp idx) retries).1.map (sendEvToEv idx) ++
                [Ev.print (PrintLine.batchSummary (idx + 1) total
                  (result.created?.getD 0) (result.failed?.getD 0))]) ++
                (sendBatches resp retries total (idx + 1) rest
                  (tc + result.created?.getD 0) (tf + result.failed?.getD 0)).1 := by
            simp [sendBatches, hs, hfail]
          rw [htr] at hmem
          rcases List.mem_append.mp hmem with hm1 | hm2
          · rcases List.mem_append.mp hm1 with hm3 | hm4
            · obtain ⟨se, _, habs⟩ := List.mem_map.mp hm3
              exact sendEvToEv_ne_print idx se _ habs
            · rcases List.mem_singleton.mp hm4 with he
              simp at he
          · exact ih (idx + 1) _ _ ix er hm2

/-- Every load-phase event is a directory listing or a file read. -/
theorem loadPhase_events (a : Args) (input : PathState) :
    ∀ ev ∈ (loadPhase a input).1,
      ev = Ev.listDir ∨ (∃ nm, ev = Ev.readFile nm) ∨ ev = Ev.readInput := by
  intro ev hev
  rw [loadPhase] at hev
  cases hf : resolveFmt a input with
  | dir =>
      rw [hf] at hev
      cases input with
      | dir entries =>
          simp only [load_documents_from_dir, List.mem_cons] at hev
          rcases hev with rfl | hev
          · exact Or.inl rfl
          · exact Or.inr (Or.inl (loadFilesGo_events _ _ _ ev hev))
      | file c => simp [load_documents_from_dir] at hev
      | missing => simp [load_documents_from_dir] at hev
  | json =>
      rw [hf] at hev
      cases input with
      | dir entries => simp [load_documents_from_json] at hev
      | file c =>
          simp only [load_documents_from_json, List.mem_singleton] at hev
          exact Or.inr (Or.inr hev)
      | missing => simp [load_documents_from_json] at hev

/-- The outcome of every run: abort with an error, succeed with status 0 on a
dry run, or finish the batch loop printing final totals `tc`/`tf` and exit
with `0` iff `tf = 0` and `1` otherwise. -/
theorem main_spec (a : Args) (input : PathState) (resp : Nat → Nat → HttpOutcome) :
    (∃ e, (main a input resp).2 = .error e) ∨
    ((main a input resp).2 = .ok 0 ∧ a.dry_run = true) ∨
    (∃ tc tf, (main a input resp).2 = .ok (if tf = 0 then 0 else 1) ∧
      Ev.print (PrintLine.done tc tf) ∈ (main a input resp).1) := by
  cases hl : (loadPhase a input).2 with
  | error e =>
      left
      exact ⟨e, by simp only [main, hl]⟩
  | ok docs =>
      cases hdry : a.dry_run with
      | true =>
          right; left
          refine ⟨?_, rfl⟩
          simp [main, hl, hdry]
      | false =>
          cases hch : chunked docs a.batch_size with
          | error e =>
              left
              refine ⟨e, ?_⟩
              simp only [main, hl, hdry, Bool.false_eq_true, if_false, hch]
          | ok batches =>
              rcases sendBatches_spec resp a.retries batches.length batches 0 0 0
                with ⟨m, hm⟩ | ⟨tc2, tf2, hok, hmem⟩
              · left
                refine ⟨.runtimeError m, ?_⟩
                simp only [main, hl, hdry, Bool.false_eq_true, if_false, hch]
                exact hm
              · right; right
                refine ⟨tc2, tf2, ?_, ?_⟩
                · simp only [main, hl, hdry, Bool.false_eq_true, if_false, hch]
                  exact hok
                · simp only [main, hl, hdry, Bool.false_eq_true, if_false, hch]
                  exact List.mem_append.mpr (Or.inr hmem)

/-- C1 (amended): the ConfigurationError conditions are not checked before
I/O.  A non-positive batch size is detected only after the document-load
phase has completed successfully, and only when dry-run is off: the run then
aborts having performed exactly the load-phase I/O and no transport I/O.
An unrecognized split rule or empty delimiter is detected during the load
phase in the directory strategy, after the first matching file has been
read. -/
theorem C1_config_after_load (a : Args) (input : PathState)
    (resp : Nat → Nat → HttpOutcome) :
    (a.batch_size ≤ 0 → a.dry_run = false →
      ∀ docs, (loadPhase a input).2 = .ok docs →
      main a input resp = ((loadPhase a input).1, .error (.valueError chunkSizeMsg))) ∧
    (validModeB a.split = false → resolveFmt a input = Fmt.dir →
      ∀ entries, input = PathState.dir entries →
      ∀ f fs, matchingFiles entries = f :: fs →
      main a input resp =
        ([Ev.listDir, Ev.readFile f.name], .error (splitConfigErr a.split))) := by
  constructor
  · intro hbs hdry docs hl
    have hch : chunked docs a.batch_size = .error (.valueError chunkSizeMsg) := by
      rw [chunked, if_pos hbs]
    simp [main, hl, hdry, hch]
  · intro hv hfmt entries hin f fs hmatch
    subst hin
    have hload : loadPhase a (PathState.dir entries) =
        ([Ev.listDir, Ev.readFile f.name], .error (splitConfigErr a.split)) := by
      rw [loadPhase, hfmt]
      simp only [load_documents_from_dir, hmatch,
        loadFilesGo_invalid a.language_code a.split hv f fs]
    simp [main, hload]

/-- C1 fails as stated: in this concrete run a ConfigurationError condition
(non-positive batch size) is present, the run aborts with that
ConfigurationError, and yet I/O was performed first — the input file was
read, so the document-load phase did begin. -/
theorem C1_counterexample :
    (main ⟨("en").data, 0, 3, some Fmt.json, ("blankline").data, false⟩
        (PathState.file (JVal.arr [JVal.null]))
        (fun _ _ => HttpOutcome.urlError [])).2 =
      .error (.valueError chunkSizeMsg) ∧
    isConfigurationError (.valueError chunkSizeMsg) ∧
    (main ⟨("en").data, 0, 3, some Fmt.json, ("blankline").data, false⟩
        (PathState.file (JVal.arr [JVal.null]))
        (fun _ _ => HttpOutcome.urlError [])).1.any isIOEv = true :=
  ⟨by decide, Or.inl rfl, by decide⟩

/-- Witness for the amended C1 at a concrete run. -/
theorem C1_config_after_load_witness :
    main ⟨("en").data, 0, 3, some Fmt.json, ("blankline").data, false⟩
        (PathState.file (JVal.arr [JVal.null])) (fun _ _ => HttpOutcome.urlError []) =
      ((loadPhase ⟨("en").data, 0, 3, some Fmt.json, ("blankline").data, false⟩
          (PathState.file (JVal.arr [JVal.null]))).1,
        .error (.valueError chunkSizeMsg)) :=
  (C1_config_after_load _ _ _).1 (by decide) rfl [JVal.null] rfl

/-- C2 (amended): the exit status is 0 or 1 when the run returns, and 1 when
an error aborts it — the interpreter's uncaught-exception status, which is
not distinct from the transmission-failure status.  Status 1 on a completed
run reports a nonzero accumulated failed total; status 0 reports a dry run
or a zero failed total. -/
theorem C2_exit_status (a : Args) (input : PathState)
    (resp : Nat → Nat → HttpOutcome) :
    ((main a input resp).2 = .ok 0 ∨ (main a input resp).2 = .ok 1 ∨
      ∃ e, (main a input resp).2 = .error e) ∧
    (∀ e, (main a input resp).2 = .error e → processExit (main a input resp).2 = 1) ∧
    ((main a input resp).2 = .ok 1 →
      ∃ tc tf, Ev.print (PrintLine.done tc tf) ∈ (main a input resp).1 ∧ tf ≠ 0) ∧
    ((main a input resp).2 = .ok 0 →
      a.dry_run = true ∨ ∃ tc, Ev.print (PrintLine.done tc 0) ∈ (main a input resp).1) := by
  refine ⟨?_, ?_, ?_, ?_⟩
  · rcases main_spec a input resp with ⟨e, he⟩ | ⟨h0, _⟩ | ⟨tc, tf, hok, _⟩
    · exact Or.inr (Or.inr ⟨e, he⟩)
    · exact Or.inl h0
    · by_cases htf : tf = 0
      · rw [if_pos htf] at hok
        exact Or.inl hok
      · rw [if_neg htf] at hok
        exact Or.inr (Or.inl hok)
  · intro e he
    rw [he]
    rfl
  · intro h1
    rcases main_spec a input resp with ⟨e, he⟩ | ⟨h0, _⟩ | ⟨tc, tf, hok, hmem⟩
    · rw [he] at h1
      exact absurd h1 (by simp)
    · rw [h0] at h1
      exact absurd h1 (by simp)
    · refine ⟨tc, tf, hmem, fun htf => ?_⟩
      rw [hok] at h1
      simp only [Except.ok.injEq] at h1
      rw [if_pos htf] at h1
      exact absurd h1 (by decide)
  · intro h0
    rcases main_spec a input resp with ⟨e, he⟩ | ⟨_, hdry⟩ | ⟨tc, tf, hok, hmem⟩
    · rw [he] at h0
      exact absurd h0 (by simp)
    · exact Or.inl hdry
    · right
      rw [hok] at h0
      simp only [Except.ok.injEq] at h0
      by_cases htf : tf = 0
      · exact ⟨tc, htf ▸ hmem⟩
      · rw [if_neg htf] at h0
        exact absurd h0 (by decide)

/-- C2 fails as stated: this concrete run aborts with a fatal
ConfigurationError, yet the process exit status is 1 — not a non-zero value
distinct from 1, since an uncaught Python exception terminates the
interpreter with status 1. -/
theorem C2_counterexample :
    (main ⟨("en").data, -5, 2, some Fmt.json, ("blankline").data, false⟩
        (PathState.file (JVal.arr [JVal.null]))
        (fun _ _ => HttpOutcome.urlError [])).2 =
      .error (.valueError chunkSizeMsg) ∧
    isConfigurationError (.valueError chunkSizeMsg) ∧
    processExit (main ⟨("en").data, -5, 2, some Fmt.json, ("blankline").data, false⟩
        (PathState.file (JVal.arr [JVal.null]))
        (fun _ _ => HttpOutcome.urlError [])).2 = 1 :=
  ⟨by decide, Or.inl rfl, by decide⟩

/-- Witness for the amended C2 at a concrete aborting run. -/
theorem C2_exit_status_witness :
    processExit (main ⟨("en").data, 50, 2, some Fmt.json, ("blankline").data, true⟩
        PathState.missing (fun _ _ => HttpOutcome.urlError [])).2 = 1 :=
  (C2_exit_status _ _ _).2.1 (.valueError fileNotFoundMsg) (by decide)

/-- C3 (amended): a run that completes all batches without a transport
failure exits with status `1` iff the accumulated failed total printed in
the final summary is nonzero, and `0` otherwise.  (Equivalently `> 0`
whenever every reported failed count is non-negative; see the
counterexample for a negative reported count.) -/
theorem C3_exit_iff_failures (a : Args) (input : PathState)
    (resp : Nat → Nat → HttpOutcome) (c : Nat) (hdry : a.dry_run = false)
    (h : (main a input resp).2 = .ok c) :
    ∃ tc tf, Ev.print (PrintLine.done tc tf) ∈ (main a input resp).1 ∧
      c = (if tf = 0 then 0 else 1) := by
  rcases main_spec a input resp with ⟨e, he⟩ | ⟨_, hd⟩ | ⟨tc, tf, hok, hmem⟩
  · rw [he] at h
    exact absurd h (by simp)
  · rw [hdry] at hd
    exact absurd hd (by simp)
  · refine ⟨tc, tf, hmem, ?_⟩
    rw [h] at hok
    exact (Except.ok.injEq _ _).mp hok

/-- C3 fails as stated ("1 iff totalFailed greater than 0"): in this
concrete run the single batch reports `failed = -1`; all batches are sent
without transport failure, the accumulated total is `-1`, which is not
greater than 0, and yet the exit status is 1, not 0. -/
theorem C3_counterexample :
    (main ⟨("en").data, 50, 0, some Fmt.json, ("blankline").data, false⟩
        (PathState.file (JVal.arr [JVal.null]))
        (fun _ _ => HttpOutcome.success ⟨some 0, some (-1), none⟩)).2 = .ok 1 ∧
    Ev.print (PrintLine.done 0 (-1)) ∈
      (main ⟨("en").data, 50, 0, some Fmt.json, ("blankline").data, false⟩
        (PathState.file (JVal.arr [JVal.null]))
        (fun _ _ => HttpOutcome.success ⟨some 0, some (-1), none⟩)).1 ∧
    ¬((-1 : Int) > 0) :=
  ⟨by decide, by decide, by decide⟩

/-- Witness for the amended C3 at a concrete completed run with one
reported failure. -/
theorem C3_exit_iff_failures_witness :
    ∃ tc tf, Ev.print (PrintLine.done tc tf) ∈
        (main ⟨("en").data, 50, 0, some Fmt.json, ("blankline").data, false⟩
          (PathState.file (JVal.arr [JVal.null]))
          (fun _ _ => HttpOutcome.success ⟨some 1, some 1, none⟩)).1 ∧
      1 = (if tf = 0 then 0 else 1) :=
  C3_exit_iff_failures _ _ _ 1 rfl (by decide)

/-- C10: a batch response with absent `created`/`failed` fields counts as 0
created and 0 failed — a single such batch yields exit status 0 with a
`created=0 failed=0` summary — and per-item detail lines are printed only
when a batch's reported failed count is nonzero: if no response reports a
nonzero failed count, no detail line is ever printed. -/
theorem C10_response_defaults :
    ((main ⟨("en").data, 1, 0, some Fmt.json, ("blankline").data, false⟩
        (PathState.file (JVal.arr [JVal.null]))
        (fun _ _ => HttpOutcome.success ⟨none, none, none⟩)).2 = .ok 0 ∧
      Ev.print (PrintLine.batchSummary 1 1 0 0) ∈
        (main ⟨("en").data, 1, 0, some Fmt.json, ("blankline").data, false⟩
          (PathState.file (JVal.arr [JVal.null]))
          (fun _ _ => HttpOutcome.success ⟨none, none, none⟩)).1) ∧
    (∀ (a : Args) (input : PathState) (resp : Nat → Nat → HttpOutcome),
      (∀ b k x, resp b k = HttpOutcome.success x → x.failed?.getD 0 = 0) →
      ∀ (ix : Option Int) (er : List Char),
        Ev.print (PrintLine.detail ix er) ∉ (main a input resp).1) := by
  constructor
  · exact ⟨by decide, by decide⟩
  · intro a input resp hz ix er hmem
    cases hl : (loadPhase a input).2 with
    | error e =>
        have htr : (main a input resp).1 = (loadPhase a input).1 := by
          simp [main, hl]
        rw [htr] at hmem
        rcases loadPhase_events a input _ hmem with h | ⟨nm, h⟩ | h <;> simp at h
    | ok docs =>
        cases hdry : a.dry_run with
        | true =>
            have htr : (main a input resp).1 =
                (loadPhase a input).1 ++ [Ev.print (PrintLine.loaded docs.length)] := by
              simp [main, hl, hdry]
            rw [htr] at hmem
            rcases List.mem_append.mp hmem with hm | hm
            · rcases loadPhase_events a input _ hm with h | ⟨nm, h⟩ | h <;> simp at h
            · simp at hm
        | false =>
            cases hch : chunked docs a.batch_size with
            | error e =>
                have htr : (main a input resp).1 = (loadPhase a input).1 := by
                  simp [main, hl, hdry, hch]
                rw [htr] at hmem
                rcases loadPhase_events a input _ hmem with h | ⟨nm, h⟩ | h <;> simp at h
            | ok batches =>
                have htr : (main a input resp).1 =
                    (loadPhase a input).1 ++
                      (sendBatches resp a.retries batches.length 0 batches 0 0).1 := by
                  simp [main, hl, hdry, hch]
                rw [htr] at hmem
                rcases List.mem_append.mp hmem with hm | hm
                · rcases loadPhase_events a input _ hm with h | ⟨nm, h⟩ | h <;> simp at h
                · exact sendBatches_no_details resp a.retries batches.length hz
                    batches 0 0 0 ix er hm

/-- Witness for C10: with all-defaults responses, a concrete detail line is
never printed. -/
theorem C10_response_defaults_witness :
    Ev.print (PrintLine.detail (some 0) (("bad").data)) ∉
      (main ⟨("en").data, 1, 0, some Fmt.json, ("blankline").data, false⟩
        (PathState.file (JVal.arr [JVal.null]))
        (fun _ _ => HttpOutcome.success ⟨none, none, none⟩)).1 :=
  C10_response_defaults.2
    ⟨("en").data, 1, 0, some Fmt.json, ("blankline").data, false⟩
    (PathState.file (JVal.arr [JVal.null]))
    (fun _ _ => HttpOutcome.success ⟨none, none, none⟩)
    (fun _ _ x h => by
      have hx : x = ⟨none, none, none⟩ := by
        injection h with h1
        exact h1.symm
      rw [hx]
      rfl)
    (some 0) (("bad").data)

end ImportDocs
